import Mathlib

/-!
Verification of the conversation core of the sefaria-chat repository:
the `ChatEngine` orchestrator (src/chat-engine.ts), the `McpClientManager`
tool gateway (src/mcp-client.ts) and the OpenAI-style streaming adapters
(src/providers/grok.ts, src/providers/deepseek.ts), shallowly embedded in
Lean.  Timestamps are modelled as `Int` (milliseconds, `Date.now()`),
request counts and RPM budgets as `Nat`.
-/

namespace SefariaChat

/-! ## Rate limiter (ChatEngine.recordRequest / currentUsage / waitForCapacity) -/

/-- Embeds the pruning step `this.requestTimestamps.filter(t => t > cutoff)`
with `cutoff = now - windowMs` (chat-engine.ts lines 40-41, 47-48). -/
def pruneLedger (ledger : List Int) (now windowMs : Int) : List Int :=
  ledger.filter (fun t => decide (now - windowMs < t))

/-- Embeds `currentUsage()` (chat-engine.ts lines 45-50): prune, then count. -/
def currentUsage (ledger : List Int) (now windowMs : Int) : Nat :=
  (pruneLedger ledger now windowMs).length

/-- Embeds `const effectiveLimit = Math.max(1, rpm - 1)` (chat-engine.ts line 61).
For a `Nat` rpm, truncated subtraction gives the same value as the JS
expression for every rpm (both are 1 when rpm ≤ 1). -/
def effectiveLimit (rpm : Nat) : Nat :=
  max 1 (rpm - 1)

/-- Embeds `recordRequest()` (chat-engine.ts lines 37-42): push `now`, then
prune with cutoff `now - windowMs`. -/
def recordRequest (ledger : List Int) (now windowMs : Int) : List Int :=
  pruneLedger (ledger ++ [now]) now windowMs

/-- States of the request ledger reachable by a sequence of admitted provider
calls through one engine.  A step at time `t'` (with time nondecreasing, as
`Date.now()` is) is admitted only when `waitForCapacity` has observed
`currentUsage < effectiveLimit rpm` (chat-engine.ts line 62), after which
`recordRequest` runs (line 144). -/
inductive RateReach (windowMs : Int) (rpm : Nat) : List Int → Int → Prop
  | init (t0 : Int) : RateReach windowMs rpm [] t0
  | step {ledger : List Int} {t t' : Int} :
      RateReach windowMs rpm ledger t →
      t ≤ t' →
      currentUsage ledger t' windowMs < effectiveLimit rpm →
      RateReach windowMs rpm (recordRequest ledger t' windowMs) t'

theorem pruneLedger_append (l l' : List Int) (now windowMs : Int) :
    pruneLedger (l ++ l') now windowMs =
      pruneLedger l now windowMs ++ pruneLedger l' now windowMs := by
  simp [pruneLedger, List.filter_append]

theorem pruneLedger_pruneLedger {a b : Int} (l : List Int) (w : Int) (h : a ≤ b) :
    pruneLedger (pruneLedger l a w) b w = pruneLedger l b w := by
  simp only [pruneLedger, List.filter_filter]
  refine List.filter_congr (fun t _ => ?_)
  by_cases hb : b - w < t
  · have ha : a - w < t := by omega
    simp [ha, hb]
  · simp [hb]

theorem pruneLedger_length_mono {a b : Int} (l : List Int) (w : Int) (h : a ≤ b) :
    (pruneLedger l b w).length ≤ (pruneLedger l a w).length := by
  refine List.Sublist.length_le (List.monotone_filter_right l (fun t ht => ?_))
  simp only [decide_eq_true_eq] at ht ⊢
  omega

/-- Core safety invariant of the admission controller: in every reachable
ledger state, at the state's own time or any later time, the pruned window
holds at most `max 1 (rpm - 1)` timestamps. -/
theorem rateReach_usage_le {windowMs : Int} {rpm : Nat} {ledger : List Int} {t : Int}
    (h : RateReach windowMs rpm ledger t) :
    ∀ t', t ≤ t' → currentUsage ledger t' windowMs ≤ effectiveLimit rpm := by
  induction h with
  | init t0 =>
      intro t' _
      simp [currentUsage, pruneLedger]
  | @step ledger t t' hreach hle hcap ih =>
      intro t'' h''
      have hkey : currentUsage (recordRequest ledger t' windowMs) t'' windowMs
          ≤ currentUsage ledger t' windowMs + 1 := by
        unfold currentUsage recordRequest
        rw [pruneLedger_pruneLedger _ _ h'', pruneLedger_append]
        rw [List.length_append]
        have h1 : (pruneLedger ledger t'' windowMs).length
            ≤ (pruneLedger ledger t' windowMs).length :=
          pruneLedger_length_mono _ _ h''
        have h2 : (pruneLedger [t'] t'' windowMs).length ≤ 1 := by
          have := List.length_filter_le (fun t => decide (t'' - windowMs < t)) [t']
          simpa [pruneLedger] using this
        omega
      omega

/-- Claim C1 (amended): every admitted call is gated by
`currentUsage < max 1 (rpm - 1)` (the `RateReach.step` side condition, embedding
chat-engine.ts lines 61-62), and consequently in every reachable state the
pruned window of length `windowMs` holds at most `max 1 (rpm - 1)` recorded
timestamps — strictly fewer than `rpm` of them whenever `rpm ≥ 2`.  (For
`rpm = 1` the window may hold exactly one timestamp, i.e. `rpm` of them; see
the counterexample.) -/
theorem admission_window_bound {windowMs : Int} {rpm : Nat} {ledger : List Int}
    {t t' : Int} (h : RateReach windowMs rpm ledger t) (ht : t ≤ t') :
    currentUsage ledger t' windowMs ≤ effectiveLimit rpm ∧
      (2 ≤ rpm → currentUsage ledger t' windowMs < rpm) := by
  have hle := rateReach_usage_le h t' ht
  refine ⟨hle, fun h2 => ?_⟩
  have : effectiveLimit rpm = rpm - 1 := by
    unfold effectiveLimit; omega
  omega

/-- Witness for `admission_window_bound`: one admitted call at time 0 with
rpm = 5, window 60000, observed at time 5. -/
theorem admission_window_bound_witness :
    currentUsage (recordRequest [] 0 60000) 5 60000 ≤ effectiveLimit 5 ∧
      (2 ≤ 5 → currentUsage (recordRequest [] 0 60000) 5 60000 < 5) :=
  admission_window_bound
    (RateReach.step (RateReach.init 0) le_rfl (by decide)) (by decide)

/-- Counterexample to claim C1 as stated: with effective RPM `R = 1` the state
reached by a single admitted call at time 0 has, at that same instant, one
timestamp in the pruned window — i.e. `R` of them, violating "no window ever
contains `R` or more recorded timestamps after pruning". -/
theorem admission_window_r1_counterexample :
    RateReach 60000 1 (recordRequest [] 0 60000) 0 ∧
      ¬ currentUsage (recordRequest [] 0 60000) 0 60000 < 1 :=
  ⟨RateReach.step (RateReach.init 0) le_rfl (by decide), by decide⟩

/-! ## Canonical message model (providers/types.ts) and the sendMessage loop -/

/-- Canonical message part (`MessagePart`): `{text}`, `{functionCall}` or
`{functionResponse}`.  Tool arguments are carried as their raw string form
(the orchestrator never inspects them); response payloads are string-valued
JSON objects, enough for the fields (`result`, `error`) the engine builds. -/
inductive Part
  | text (t : String)
  | functionCall (name : String) (args : String) (id : String)
  | functionResponse (name : String) (response : List (String × String)) (callId : String)
deriving DecidableEq, Repr

inductive Role
  | user
  | model
deriving DecidableEq, Repr

structure Message where
  role : Role
  parts : List Part
deriving DecidableEq, Repr

structure FunctionCall where
  name : String
  args : String
  id : String
deriving DecidableEq, Repr

/-- Result of one `streamChat` call (providers/types.ts `StreamResult`). -/
structure StreamResult where
  text : String
  functionCalls : List FunctionCall
deriving DecidableEq, Repr

/-- An MCP tool result: `typeof mcpResult === 'string'` or an object. -/
inductive McpResult
  | str (s : String)
  | obj (o : List (String × String))
deriving DecidableEq, Repr

/-- `onToolStatus(toolName, 'calling' | 'done')` events. -/
inductive ToolEvent
  | calling (toolName : String)
  | done (toolName : String)
deriving DecidableEq, Repr

/-- Outcome of one provider `streamChat` invocation: a result, or a thrown
error. -/
inductive ProviderStep
  | ok (res : StreamResult)
  | err (e : String)
deriving DecidableEq, Repr

/-- The tool gateway as seen by the engine: `mcpManager.callTool(name, args)`
either returns a result or throws an error message. -/
def Gateway : Type := String → String → Except String McpResult

/-- Embeds chat-engine.ts lines 175-177:
`typeof mcpResult === 'string' ? { result: mcpResult } : mcpResult`. -/
def serializeResult : McpResult → List (String × String)
  | .str s => [("result", s)]
  | .obj o => o

/-- The error payload string of chat-engine.ts line 186. -/
def errMsgFor (name e : String) : String :=
  "Error invoking tool " ++ name ++ ": " ++ e

/-- Embeds the body of the per-call try/catch (chat-engine.ts lines 173-191):
one `functionResponse` part per call, success or failure. -/
def execCall (gw : Gateway) (fc : FunctionCall) : Part :=
  match gw fc.name fc.args with
  | .ok r => .functionResponse fc.name (serializeResult r) fc.id
  | .error e => .functionResponse fc.name [("error", errMsgFor fc.name e)] fc.id

/-- Embeds the sequential per-call loop (chat-engine.ts lines 170-193),
accumulating response parts and `onToolStatus` events in call order. -/
def execCalls (gw : Gateway) (fcs : List FunctionCall) : List Part × List ToolEvent :=
  fcs.foldl
    (fun acc fc =>
      (acc.1 ++ [execCall gw fc],
       acc.2 ++ [ToolEvent.calling fc.name, ToolEvent.done fc.name]))
    ([], [])

/-- The expected event trace: `calling` then `done`, once each, per call. -/
def callEvents : List FunctionCall → List ToolEvent
  | [] => []
  | fc :: rest => ToolEvent.calling fc.name :: ToolEvent.done fc.name :: callEvents rest

theorem execCalls_eq (gw : Gateway) (fcs : List FunctionCall) :
    execCalls gw fcs = (fcs.map (execCall gw), callEvents fcs) := by
  suffices h : ∀ acc : List Part × List ToolEvent,
      fcs.foldl
        (fun acc fc =>
          (acc.1 ++ [execCall gw fc],
           acc.2 ++ [ToolEvent.calling fc.name, ToolEvent.done fc.name])) acc =
        (acc.1 ++ fcs.map (execCall gw), acc.2 ++ callEvents fcs) by
    simpa [execCalls] using h ([], [])
  induction fcs with
  | nil => intro acc; simp [callEvents]
  | cons fc rest ih => intro acc; simp [callEvents, ih]

/-- The model turn appended when function calls are present (chat-engine.ts
lines 156-166): a text part when `result.text` is truthy, then one
`functionCall` part per call, in order. -/
def modelTurn (res : StreamResult) : Message :=
  { role := Role.model,
    parts := (if res.text = "" then [] else [Part.text res.text]) ++
      res.functionCalls.map (fun fc => Part.functionCall fc.name fc.args fc.id) }

/-- The function-response message appended right after the model turn
(chat-engine.ts lines 170-196, role `user` per Gemini convention). -/
def toolResponseTurn (gw : Gateway) (res : StreamResult) : Message :=
  { role := Role.user, parts := (execCalls gw res.functionCalls).1 }

/-- Result of the tool-calling loop: the final conversation history, the
`onToolStatus` event trace, the propagated provider error (if any), and the
number of provider invocations made. -/
structure LoopResult where
  history : List Message
  events : List ToolEvent
  error : Option String
  rounds : Nat
deriving DecidableEq, Repr

def bumpRounds (r : LoopResult) : LoopResult :=
  { r with rounds := r.rounds + 1 }

/-- Embeds the tool-calling loop of `sendMessage` (chat-engine.ts lines
132-197), fuelled by the remaining round budget.  `prov round` is the outcome
of the provider `streamChat` call in that round; a thrown error propagates
with the history exactly as it was at the start of the round. -/
def sendMessageLoop (gw : Gateway) (prov : Nat → ProviderStep) :
    Nat → Nat → List Message → List ToolEvent → LoopResult
  | _, 0, hist, evs => ⟨hist, evs, none, 0⟩
  | round, fuel + 1, hist, evs =>
    match prov round with
    | .err e => ⟨hist, evs, some e, 1⟩
    | .ok res =>
      if res.functionCalls = [] then
        ⟨hist ++ [⟨Role.model, [Part.text res.text]⟩], evs, none, 1⟩
      else
        bumpRounds (sendMessageLoop gw prov (round + 1) fuel
          (hist ++ [modelTurn res, toolResponseTurn gw res])
          (evs ++ (execCalls gw res.functionCalls).2))

/-- `const maxRounds = 10` (chat-engine.ts line 132). -/
def maxRounds : Nat := 10

/-- The user message pushed at the start of `sendMessage` (lines 118-121). -/
def userMsg (s : String) : Message :=
  ⟨Role.user, [Part.text s]⟩

/-- Embeds `sendMessage` (chat-engine.ts lines 101-198): push the user
message, then run the tool-calling loop for up to `maxRounds` rounds. -/
def sendMessage (gw : Gateway) (prov : Nat → ProviderStep)
    (hist : List Message) (m : String) : LoopResult :=
  sendMessageLoop gw prov 0 maxRounds (hist ++ [userMsg m]) []

theorem sendMessageLoop_zero (gw : Gateway) (prov : Nat → ProviderStep)
    (round : Nat) (hist : List Message) (evs : List ToolEvent) :
    sendMessageLoop gw prov round 0 hist evs = ⟨hist, evs, none, 0⟩ := rfl

theorem sendMessageLoop_err (gw : Gateway) (prov : Nat → ProviderStep)
    {round : Nat} {e : String} (hp : prov round = .err e)
    (fuel : Nat) (hist : List Message) (evs : List ToolEvent) :
    sendMessageLoop gw prov round (fuel + 1) hist evs = ⟨hist, evs, some e, 1⟩ := by
  simp [sendMessageLoop, hp]

theorem sendMessageLoop_done (gw : Gateway) (prov : Nat → ProviderStep)
    {round : Nat} {res : StreamResult} (hp : prov round = .ok res)
    (h0 : res.functionCalls = [])
    (fuel : Nat) (hist : List Message) (evs : List ToolEvent) :
    sendMessageLoop gw prov round (fuel + 1) hist evs =
      ⟨hist ++ [⟨Role.model, [Part.text res.text]⟩], evs, none, 1⟩ := by
  simp [sendMessageLoop, hp, h0]

theorem sendMessageLoop_calls (gw : Gateway) (prov : Nat → ProviderStep)
    {round : Nat} {res : StreamResult} (hp : prov round = .ok res)
    (h : res.functionCalls ≠ [])
    (fuel : Nat) (hist : List Message) (evs : List ToolEvent) :
    sendMessageLoop gw prov round (fuel + 1) hist evs =
      bumpRounds (sendMessageLoop gw prov (round + 1) fuel
        (hist ++ [modelTurn res, toolResponseTurn gw res])
        (evs ++ (execCalls gw res.functionCalls).2)) := by
  simp [sendMessageLoop, hp, h]

/-! ## Extracting call/response signatures for the per-call invariant -/

/-- The `(name, id)` signatures of the `functionCall` parts of a message. -/
def callSigs (m : Message) : List (String × String) :=
  m.parts.filterMap fun p =>
    match p with
    | .functionCall n _ i => some (n, i)
    | _ => none

/-- The `(name, callId)` signatures of the `functionResponse` parts. -/
def respSigs (m : Message) : List (String × String) :=
  m.parts.filterMap fun p =>
    match p with
    | .functionResponse n _ i => some (n, i)
    | _ => none

theorem callSigs_modelTurn (res : StreamResult) :
    callSigs (modelTurn res) = res.functionCalls.map (fun fc => (fc.name, fc.id)) := by
  unfold callSigs modelTurn
  rw [List.filterMap_append]
  have h1 : (if res.text = "" then [] else [Part.text res.text]).filterMap
      (fun p => match p with
        | .functionCall n _ i => some (n, i)
        | _ => none) = [] := by
    by_cases h : res.text = "" <;> simp [h]
  rw [h1, List.nil_append, List.filterMap_map]
  exact List.filterMap_eq_map _ ▸ rfl

theorem respSigs_toolResponseTurn (gw : Gateway) (res : StreamResult) :
    respSigs (toolResponseTurn gw res) =
      res.functionCalls.map (fun fc => (fc.name, fc.id)) := by
  unfold respSigs toolResponseTurn
  rw [execCalls_eq]
  simp only [List.filterMap_map]
  induction res.functionCalls with
  | nil => rfl
  | cons fc rest ih =>
      rw [List.filterMap_cons, List.map_cons]
      cases hg : gw fc.name fc.args <;>
        simp only [Function.comp_apply, execCall, hg] <;> rw [ih]

/-! ## Theorems about the sendMessage loop (claims C2, C3, C4, C7) -/

/-- The pair of messages (model turn, response turn) appended by each of `j`
consecutive tool rounds starting at round `round`. -/
def roundsMsgs (gw : Gateway) (resF : Nat → StreamResult) : Nat → Nat → List Message
  | _, 0 => []
  | round, j + 1 =>
    [modelTurn (resF round), toolResponseTurn gw (resF round)] ++
      roundsMsgs gw resF (round + 1) j

/-- The `onToolStatus` events emitted by `j` consecutive tool rounds. -/
def roundsEvts (gw : Gateway) (resF : Nat → StreamResult) : Nat → Nat → List ToolEvent
  | _, 0 => []
  | round, j + 1 =>
    (execCalls gw (resF round).functionCalls).2 ++ roundsEvts gw resF (round + 1) j

theorem sendMessageLoop_allCalls (gw : Gateway) (prov : Nat → ProviderStep)
    (resF : Nat → StreamResult)
    (h : ∀ k, prov k = .ok (resF k) ∧ (resF k).functionCalls ≠ []) :
    ∀ fuel round hist evs,
      sendMessageLoop gw prov round fuel hist evs =
        ⟨hist ++ roundsMsgs gw resF round fuel,
         evs ++ roundsEvts gw resF round fuel, none, fuel⟩ := by
  intro fuel
  induction fuel with
  | zero => intro round hist evs; simp [sendMessageLoop_zero, roundsMsgs, roundsEvts]
  | succ fuel ih =>
      intro round hist evs
      rw [sendMessageLoop_calls gw prov (h round).1 (h round).2, ih]
      simp [bumpRounds, roundsMsgs, roundsEvts]

/-- Claim C2: in a round whose model result carries function calls, the loop
appends exactly the model turn and, as the very next message, the response
turn; the response parts are one `functionResponse` per call via `execCall`,
with the same `(name, id)` signatures in the same order as the `functionCall`
parts of the model turn; each response carries either the serialized tool
result or an error payload; and the round's event trace is exactly
`calling`/`done`, once each, per call, in call order. -/
theorem per_call_response_invariant (gw : Gateway) (prov : Nat → ProviderStep)
    (round fuel : Nat) (hist : List Message) (evs : List ToolEvent)
    (res : StreamResult) (hp : prov round = .ok res)
    (h : res.functionCalls ≠ []) :
    sendMessageLoop gw prov round (fuel + 1) hist evs =
      bumpRounds (sendMessageLoop gw prov (round + 1) fuel
        (hist ++ [modelTurn res, toolResponseTurn gw res])
        (evs ++ callEvents res.functionCalls)) ∧
    respSigs (toolResponseTurn gw res) = callSigs (modelTurn res) ∧
    (toolResponseTurn gw res).parts = res.functionCalls.map (execCall gw) ∧
    (∀ fc ∈ res.functionCalls,
      (∃ r, gw fc.name fc.args = .ok r ∧
        execCall gw fc = .functionResponse fc.name (serializeResult r) fc.id) ∨
      (∃ e, gw fc.name fc.args = .error e ∧
        execCall gw fc = .functionResponse fc.name [("error", errMsgFor fc.name e)] fc.id)) ∧
    (execCalls gw res.functionCalls).2 = callEvents res.functionCalls := by
  refine ⟨?_, ?_, ?_, ?_, ?_⟩
  · rw [sendMessageLoop_calls gw prov hp h, execCalls_eq]
  · rw [respSigs_toolResponseTurn, callSigs_modelTurn]
  · unfold toolResponseTurn; rw [execCalls_eq]
  · intro fc _
    cases hg : gw fc.name fc.args with
    | ok r => exact Or.inl ⟨r, rfl, by simp [execCall, hg]⟩
    | error e => exact Or.inr ⟨e, rfl, by simp [execCall, hg]⟩
  · rw [execCalls_eq]

/-- Witness for `per_call_response_invariant` on a one-call round. -/
theorem per_call_response_invariant_witness :
    (fun gw prov round fuel hist evs res =>
      sendMessageLoop gw prov round (fuel + 1) hist evs =
        bumpRounds (sendMessageLoop gw prov (round + 1) fuel
          (hist ++ [modelTurn res, toolResponseTurn gw res])
          (evs ++ callEvents res.functionCalls)) ∧
      respSigs (toolResponseTurn gw res) = callSigs (modelTurn res) ∧
      (toolResponseTurn gw res).parts = res.functionCalls.map (execCall gw) ∧
      (∀ fc ∈ res.functionCalls,
        (∃ r, gw fc.name fc.args = .ok r ∧
          execCall gw fc = .functionResponse fc.name (serializeResult r) fc.id) ∨
        (∃ e, gw fc.name fc.args = .error e ∧
          execCall gw fc = .functionResponse fc.name [("error", errMsgFor fc.name e)] fc.id)) ∧
      (execCalls gw res.functionCalls).2 = callEvents res.functionCalls)
      (fun _ _ => Except.ok (McpResult.str "result"))
      (fun _ => ProviderStep.ok ⟨"", [⟨"lookup", "", "c1"⟩]⟩)
      0 0 [] [] ⟨"", [⟨"lookup", "", "c1"⟩]⟩ :=
  per_call_response_invariant
    (fun _ _ => Except.ok (McpResult.str "result"))
    (fun _ => ProviderStep.ok ⟨"", [⟨"lookup", "", "c1"⟩]⟩)
    0 0 [] [] ⟨"", [⟨"lookup", "", "c1"⟩]⟩ rfl (by decide)

/-- Claim C3: if the provider throws in round `j` (after `j` completed tool
rounds), `sendMessage` propagates the error and the history is exactly the
state it had at the start of the failed round: the user message plus the two
messages of each completed round — nothing from round `j`. -/
theorem provider_failure_atomicity (gw : Gateway) (prov : Nat → ProviderStep)
    (resF : Nat → StreamResult) (j : Nat) (e : String)
    (hok : ∀ k, k < j → prov k = .ok (resF k) ∧ (resF k).functionCalls ≠ [])
    (herr : prov j = .err e) (hj : j < maxRounds)
    (hist : List Message) (m : String) :
    sendMessage gw prov hist m =
      ⟨(hist ++ [userMsg m]) ++ roundsMsgs gw resF 0 j,
       roundsEvts gw resF 0 j, some e, j + 1⟩ := by
  suffices key : ∀ (j : Nat) (round fuel : Nat) (hist : List Message)
      (evs : List ToolEvent), j < fuel →
      (∀ k, k < j → prov (round + k) = .ok (resF (round + k)) ∧
        (resF (round + k)).functionCalls ≠ []) →
      prov (round + j) = .err e →
      sendMessageLoop gw prov round fuel hist evs =
        ⟨hist ++ roundsMsgs gw resF round j,
         evs ++ roundsEvts gw resF round j, some e, j + 1⟩ by
    have h := key j 0 maxRounds (hist ++ [userMsg m]) [] hj
      (by simpa using hok) (by simpa using herr)
    simpa [sendMessage] using h
  intro j
  induction j with
  | zero =>
      intro round fuel hist evs hlt _ herr'
      obtain ⟨fuel', rfl⟩ : ∃ fuel', fuel = fuel' + 1 :=
        ⟨fuel - 1, by omega⟩
      rw [sendMessageLoop_err gw prov (by simpa using herr')]
      simp [roundsMsgs, roundsEvts]
  | succ j ih =>
      intro round fuel hist evs hlt hok' herr'
      obtain ⟨fuel', rfl⟩ : ∃ fuel', fuel = fuel' + 1 :=
        ⟨fuel - 1, by omega⟩
      have h0 := hok' 0 (by omega)
      rw [sendMessageLoop_calls gw prov (by simpa using h0.1) (by simpa using h0.2)]
      rw [ih (round + 1) fuel' _ _ (by omega)
        (fun k hk => by
          have := hok' (k + 1) (by omega)
          constructor
          · simpa [Nat.add_assoc, Nat.add_comm 1 k] using this.1
          · simpa [Nat.add_assoc, Nat.add_comm 1 k] using this.2)
        (by simpa [Nat.add_assoc, Nat.add_comm 1 j] using herr')]
      simp [bumpRounds, roundsMsgs, roundsEvts]

/-- Witness for `provider_failure_atomicity`: a provider that throws on the
very first round leaves only the user message in history. -/
theorem provider_failure_atomicity_witness :
    sendMessage (fun _ _ => Except.ok (McpResult.str ""))
        (fun _ => ProviderStep.err "boom") [] "hello" =
      ⟨([] ++ [userMsg "hello"]) ++
         roundsMsgs (fun _ _ => Except.ok (McpResult.str "")) (fun _ => ⟨"", []⟩) 0 0,
       roundsEvts (fun _ _ => Except.ok (McpResult.str "")) (fun _ => ⟨"", []⟩) 0 0,
       some "boom", 0 + 1⟩ :=
  provider_failure_atomicity
    (fun _ _ => Except.ok (McpResult.str "")) (fun _ => ProviderStep.err "boom")
    (fun _ => ⟨"", []⟩) 0 "boom" (fun k hk => absurd hk (by omega)) rfl
    (by decide) [] "hello"

/-- Claim C4: against a model that returns at least one function call in
every round, the loop makes exactly `maxRounds = 10` provider calls, then
ends with no error; the history gains the user message plus two messages per
round, and every appended model-role message still carries a `functionCall`
part — no terminal plain-text assistant turn is appended. -/
theorem tool_loop_bound (gw : Gateway) (prov : Nat → ProviderStep)
    (resF : Nat → StreamResult)
    (h : ∀ k, prov k = .ok (resF k) ∧ (resF k).functionCalls ≠ [])
    (hist : List Message) (m : String) :
    sendMessage gw prov hist m =
      ⟨(hist ++ [userMsg m]) ++ roundsMsgs gw resF 0 maxRounds,
       roundsEvts gw resF 0 maxRounds, none, maxRounds⟩ ∧
    maxRounds = 10 ∧
    (∀ msg ∈ roundsMsgs gw resF 0 maxRounds,
      msg.role = Role.model → callSigs msg ≠ []) := by
  refine ⟨?_, rfl, ?_⟩
  · rw [sendMessage, sendMessageLoop_allCalls gw prov resF h]
    simp
  · suffices key : ∀ (j round : Nat), ∀ msg ∈ roundsMsgs gw resF round j,
        msg.role = Role.model → callSigs msg ≠ [] from key maxRounds 0
    intro j
    induction j with
    | zero => intro round msg hmem; simp [roundsMsgs] at hmem
    | succ j ih =>
        intro round msg hmem hrole
        simp only [roundsMsgs, List.cons_append, List.nil_append,
          List.mem_cons] at hmem
        rcases hmem with rfl | hmem
        · rw [callSigs_modelTurn]
          simpa using (h round).2
        · rcases hmem with rfl | hmem
          · simp [toolResponseTurn, Role] at hrole
          · exact ih (round + 1) msg hmem hrole

/-- Witness for `tool_loop_bound`: a model that always asks for one tool. -/
theorem tool_loop_bound_witness :
    (fun gw prov resF hist m =>
      sendMessage gw prov hist m =
        ⟨(hist ++ [userMsg m]) ++ roundsMsgs gw resF 0 maxRounds,
         roundsEvts gw resF 0 maxRounds, none, maxRounds⟩ ∧
      maxRounds = 10 ∧
      (∀ msg ∈ roundsMsgs gw resF 0 maxRounds,
        msg.role = Role.model → callSigs msg ≠ []))
      (fun _ _ => Except.ok (McpResult.str "out"))
      (fun _ => ProviderStep.ok ⟨"", [⟨"lookup", "", "c"⟩]⟩)
      (fun _ => ⟨"", [⟨"lookup", "", "c"⟩]⟩) [] "hi" :=
  tool_loop_bound
    (fun _ _ => Except.ok (McpResult.str "out"))
    (fun _ => ProviderStep.ok ⟨"", [⟨"lookup", "", "c"⟩]⟩)
    (fun _ => ⟨"", [⟨"lookup", "", "c"⟩]⟩)
    (fun _ => ⟨rfl, List.cons_ne_nil _ _⟩) [] "hi"

/-- Claim C7: a provider that returns zero function calls in round 1
terminates `sendMessage` in exactly one round, appending exactly one model
Text turn; the history grows by exactly 2 messages (user, then model) and no
`onToolStatus` event fires. -/
theorem single_round_success (gw : Gateway) (prov : Nat → ProviderStep)
    (res : StreamResult) (hp : prov 0 = .ok res)
    (h0 : res.functionCalls = []) (hist : List Message) (m : String) :
    sendMessage gw prov hist m =
      ⟨hist ++ [userMsg m, ⟨Role.model, [Part.text res.text]⟩], [], none, 1⟩ ∧
    (sendMessage gw prov hist m).history.length = hist.length + 2 ∧
    (sendMessage gw prov hist m).events = [] ∧
    (sendMessage gw prov hist m).rounds = 1 := by
  have key : sendMessage gw prov hist m =
      ⟨hist ++ [userMsg m, ⟨Role.model, [Part.text res.text]⟩], [], none, 1⟩ := by
    rw [sendMessage]
    have h10 : maxRounds = 9 + 1 := rfl
    rw [h10, sendMessageLoop_done gw prov hp h0]
    simp
  refine ⟨key, ?_, ?_, ?_⟩ <;> simp [key]

/-- Witness for `single_round_success`: plain-text "hi" answer to "hello". -/
theorem single_round_success_witness :
    sendMessage (fun _ _ => Except.ok (McpResult.str ""))
        (fun _ => ProviderStep.ok ⟨"hi", []⟩) [] "hello" =
      ⟨[] ++ [userMsg "hello", ⟨Role.model, [Part.text "hi"]⟩], [], none, 1⟩ ∧
    (sendMessage (fun _ _ => Except.ok (McpResult.str ""))
      (fun _ => ProviderStep.ok ⟨"hi", []⟩) [] "hello").history.length =
        List.length ([] : List Message) + 2 ∧
    (sendMessage (fun _ _ => Except.ok (McpResult.str ""))
      (fun _ => ProviderStep.ok ⟨"hi", []⟩) [] "hello").events = [] ∧
    (sendMessage (fun _ _ => Except.ok (McpResult.str ""))
      (fun _ => ProviderStep.ok ⟨"hi", []⟩) [] "hello").rounds = 1 :=
  single_round_success (fun _ _ => Except.ok (McpResult.str ""))
    (fun _ => ProviderStep.ok ⟨"hi", []⟩) ⟨"hi", []⟩ rfl rfl [] "hello"

/-! ## McpClientManager (src/mcp-client.ts): connect / callTool / disconnect -/

/-- Association-list lookup mirroring JS `Map.get` (keys are unique in a JS
`Map`; on our lists the first match is returned). -/
def alookup {α β : Type} [DecidableEq α] : List (α × β) → α → Option β
  | [], _ => none
  | p :: rest, k => if p.1 = k then some p.2 else alookup rest k

/-- JS `Map.set`: replace in place when the key exists, append otherwise. -/
def mapSet {α β : Type} [DecidableEq α] (m : List (α × β)) (k : α) (v : β) :
    List (α × β) :=
  if (alookup m k).isSome then
    m.map (fun p => if p.1 = k then (k, v) else p)
  else
    m ++ [(k, v)]

/-- A registered tool (mcp-client.ts `McpTool`, schema field omitted —
never inspected by the routing logic). -/
structure McpTool where
  name : String
  description : String
  serverName : String
deriving DecidableEq, Repr

/-- The manager's mutable state: `clients` (set of connected server names),
`toolToServer` routing map, and the merged `tools` catalog. -/
structure McpState where
  clients : List String
  toolToServer : List (String × String)
  tools : List McpTool
deriving DecidableEq, Repr

/-- How one server's connection attempt inside `connect()` ends: total
failure (caught, nothing registered), connected without the tools capability,
or connected with a tool list `(name, description)` to register. -/
inductive ConnectOutcome
  | fail
  | noTools
  | withTools (ts : List (String × String))
deriving DecidableEq, Repr

def addClient (cs : List String) (s : String) : List String :=
  if s ∈ cs then cs else cs ++ [s]

/-- Registering one advertised tool (mcp-client.ts lines 248-255): push onto
the catalog and `toolToServer.set(tool.name, server.name)`. -/
def registerTool (st : McpState) (server tname tdesc : String) : McpState :=
  { st with
    tools := st.tools ++ [⟨tname, tdesc, server⟩],
    toolToServer := mapSet st.toolToServer tname server }

/-- One server's branch of `connect()` (mcp-client.ts lines 210-265): on
success the client is stored first (line 242), then — if the server has the
tools capability — each advertised tool is registered in order. -/
def connectServer (st : McpState) (server : String) (oc : ConnectOutcome) : McpState :=
  match oc with
  | .fail => st
  | .noTools => { st with clients := addClient st.clients server }
  | .withTools ts =>
      ts.foldl (fun s t => registerTool s server t.1 t.2)
        { st with clients := addClient st.clients server }

/-- `listAllTools()` (mcp-client.ts lines 271-273). -/
def listAllTools (st : McpState) : List McpTool :=
  st.tools

/-- `disconnect()` (mcp-client.ts lines 308-319): close everything, then
clear all three containers. -/
def disconnectAll (_st : McpState) : McpState :=
  ⟨[], [], []⟩

/-- The remote call forwarded to the owning server's client. -/
def ServerCall : Type := String → String → String → McpResult

/-- `callTool(name, args)` (mcp-client.ts lines 293-306). -/
def callToolModel (sc : ServerCall) (st : McpState) (name args : String) :
    Except String McpResult :=
  match alookup st.toolToServer name with
  | none => .error ("Unknown tool: " ++ name)
  | some sv =>
      if sv ∈ st.clients then .ok (sc sv name args)
      else .error ("Server not connected: " ++ sv)

/-- Manager states reachable by any sequence of `connect` (one step per
server outcome; `connect()` itself is a sequence of such steps), `callTool`,
`listAllTools` (both state-preserving) and `disconnect` operations, starting
from the freshly constructed empty manager. -/
inductive McpReach : McpState → Prop
  | empty : McpReach ⟨[], [], []⟩
  | connect {st : McpState} (server : String) (oc : ConnectOutcome) :
      McpReach st → McpReach (connectServer st server oc)
  | disconnect {st : McpState} : McpReach st → McpReach (disconnectAll st)

theorem mem_mapSet {α β : Type} [DecidableEq α] (m : List (α × β)) (k : α) (v : β) :
    ∀ p ∈ mapSet m k v, p ∈ m ∨ p = (k, v) := by
  intro p hp
  unfold mapSet at hp
  by_cases h : (alookup m k).isSome
  · rw [if_pos h] at hp
    obtain ⟨q, hq, hpq⟩ := List.mem_map.mp hp
    by_cases hk : q.1 = k
    · right; rw [if_pos hk] at hpq; exact hpq.symm
    · left; rw [if_neg hk] at hpq; exact hpq ▸ hq
  · rw [if_neg h] at hp
    rcases List.mem_append.mp hp with h' | h'
    · exact Or.inl h'
    · exact Or.inr (List.mem_singleton.mp h')

theorem alookup_mem {α β : Type} [DecidableEq α] (m : List (α × β)) (k : α) (v : β)
    (h : alookup m k = some v) : (k, v) ∈ m := by
  induction m with
  | nil => simp [alookup] at h
  | cons p rest ih =>
      rw [alookup] at h
      by_cases hk : p.1 = k
      · rw [if_pos hk] at h
        have hpv : p = (k, v) := by cases p; simp_all
        rw [← hpv]
        exact List.mem_cons_self _ _
      · rw [if_neg hk] at h
        exact List.mem_cons_of_mem _ (ih h)

/-- The routing invariant: every routed tool's owning server has a stored
client. -/
def RoutingInv (st : McpState) : Prop :=
  ∀ p ∈ st.toolToServer, p.2 ∈ st.clients

theorem routingInv_registerTool {st : McpState} {server : String}
    (hs : server ∈ st.clients) (hinv : RoutingInv st) (tname tdesc : String) :
    RoutingInv (registerTool st server tname tdesc) := by
  intro p hp
  rcases mem_mapSet _ _ _ p hp with h | h
  · exact hinv p h
  · rw [h]; exact hs

theorem mem_addClient (cs : List String) (s : String) : s ∈ addClient cs s := by
  unfold addClient
  by_cases h : s ∈ cs
  · rwa [if_pos h]
  · rw [if_neg h]; simp

theorem subset_addClient (cs : List String) (s x : String) (h : x ∈ cs) :
    x ∈ addClient cs s := by
  unfold addClient
  by_cases hs : s ∈ cs
  · rwa [if_pos hs]
  · rw [if_neg hs]; exact List.mem_append_left _ h

theorem routingInv_foldRegister (server : String) :
    ∀ (ts : List (String × String)) (st : McpState),
      server ∈ st.clients → RoutingInv st →
      RoutingInv (ts.foldl (fun s t => registerTool s server t.1 t.2) st) := by
  intro ts
  induction ts with
  | nil => intro st _ hinv; exact hinv
  | cons t rest ih =>
      intro st hs hinv
      simp only [List.foldl_cons]
      exact ih _ hs (routingInv_registerTool hs hinv t.1 t.2)

theorem routingInv_reach {st : McpState} (h : McpReach st) : RoutingInv st := by
  induction h with
  | empty => intro p hp; simp at hp
  | @connect st server oc _ ih =>
      cases oc with
      | fail => exact ih
      | noTools =>
          intro p hp
          exact subset_addClient _ _ _ (ih p hp)
      | withTools ts =>
          exact routingInv_foldRegister server ts _ (mem_addClient _ _)
            (fun p hp => subset_addClient _ _ _ (ih p hp))
  | disconnect => intro p hp; simp [disconnectAll] at hp

theorem alookup_append {α β : Type} [DecidableEq α] (m l : List (α × β)) (k : α) :
    alookup (m ++ l) k =
      match alookup m k with
      | some v => some v
      | none => alookup l k := by
  induction m with
  | nil => simp [alookup]
  | cons p rest ih =>
      simp only [List.cons_append, alookup]
      by_cases h : p.1 = k
      · simp [h]
      · simp [h, ih]

theorem alookup_map_update {α β : Type} [DecidableEq α] (m : List (α × β))
    (k : α) (v : β) (h : (alookup m k).isSome) :
    alookup (m.map (fun p => if p.1 = k then (k, v) else p)) k = some v := by
  induction m with
  | nil => simp [alookup] at h
  | cons p rest ih =>
      by_cases hp : p.1 = k
      · simp [alookup, hp]
      · rw [alookup, if_neg hp] at h
        simpa [alookup, hp] using ih h

theorem alookup_mapSet_self {α β : Type} [DecidableEq α] (m : List (α × β))
    (k : α) (v : β) : alookup (mapSet m k v) k = some v := by
  unfold mapSet
  by_cases h : (alookup m k).isSome
  · rw [if_pos h]
    exact alookup_map_update m k v h
  · rw [if_neg h, alookup_append]
    rw [Option.not_isSome_iff_eq_none] at h
    simp [h, alookup]

theorem alookup_mapSet_other {α β : Type} [DecidableEq α] (m : List (α × β))
    {k k' : α} (v : β) (hne : k' ≠ k) :
    alookup (mapSet m k v) k' = alookup m k' := by
  unfold mapSet
  by_cases h : (alookup m k).isSome
  · rw [if_pos h]
    clear h
    induction m with
    | nil => rfl
    | cons p rest ih =>
        by_cases hp : p.1 = k
        · have : k ≠ k' := fun hc => hne hc.symm
          simp [alookup, hp, this, Ne.symm hne, ih]
        · simp only [List.map_cons, if_neg hp, alookup, ih]
  · rw [if_neg h, alookup_append]
    cases hm : alookup m k' with
    | some v' => rfl
    | none =>
        simp only [alookup]
        rw [if_neg (fun hc : k = k' => hne hc.symm)]

theorem foldRegister_preserves_other (server : String) :
    ∀ (ts : List (String × String)) (st : McpState) (n : String),
      n ∉ ts.map Prod.fst →
      alookup (ts.foldl (fun s t => registerTool s server t.1 t.2) st).toolToServer n =
        alookup st.toolToServer n := by
  intro ts
  induction ts with
  | nil => intro st n _; rfl
  | cons t rest ih =>
      intro st n hn
      simp only [List.map_cons, List.mem_cons, not_or] at hn
      simp only [List.foldl_cons]
      rw [ih _ n hn.2]
      exact alookup_mapSet_other _ _ (fun hc => hn.1 hc)

theorem alookup_foldRegister (server : String) :
    ∀ (ts : List (String × String)) (st : McpState) (n : String),
      n ∈ ts.map Prod.fst →
      alookup (ts.foldl (fun s t => registerTool s server t.1 t.2) st).toolToServer n =
        some server := by
  intro ts
  induction ts with
  | nil => intro st n hn; simp at hn
  | cons t rest ih =>
      intro st n hn
      simp only [List.foldl_cons]
      by_cases hr : n ∈ rest.map Prod.fst
      · exact ih _ n hr
      · have hnt : t.1 = n := by
          simp only [List.map_cons, List.mem_cons] at hn
          rcases hn with h | h
          · exact h.symm
          · exact absurd h hr
        rw [foldRegister_preserves_other server rest _ n hr, registerTool, hnt]
        exact alookup_mapSet_self _ _ _

theorem foldRegister_tools_length (server : String) :
    ∀ (ts : List (String × String)) (st : McpState),
      (ts.foldl (fun s t => registerTool s server t.1 t.2) st).tools.length =
        st.tools.length + ts.length := by
  intro ts
  induction ts with
  | nil => intro st; rfl
  | cons t rest ih =>
      intro st
      simp only [List.foldl_cons, List.length_cons]
      rw [ih]
      simp [registerTool]
      omega

/-! ## Claims C6, C8, C10 -/

/-- Claim C10: in every manager state reachable by connect / callTool /
listAllTools / disconnect, every routed tool name maps to a server whose
client is stored, so `callTool` can only fail with the "Unknown tool" error:
whenever it returns an error it is exactly `"Unknown tool: " ++ name`, and on
a routed name it forwards the call and returns the raw server result. -/
theorem routing_state_safety (sc : ServerCall) {st : McpState} (h : McpReach st)
    (name args : String) :
    RoutingInv st ∧
    (∀ e, callToolModel sc st name args = Except.error e →
      e = "Unknown tool: " ++ name) ∧
    (alookup st.toolToServer name = none →
      callToolModel sc st name args = Except.error ("Unknown tool: " ++ name)) ∧
    (∀ sv, alookup st.toolToServer name = some sv →
      callToolModel sc st name args = Except.ok (sc sv name args)) := by
  have hinv := routingInv_reach h
  refine ⟨hinv, ?_, ?_, ?_⟩
  · intro e he
    cases hl : alookup st.toolToServer name with
    | none =>
        have h3 : callToolModel sc st name args =
            Except.error ("Unknown tool: " ++ name) := by
          unfold callToolModel; rw [hl]
        rw [h3] at he
        injection he with h
        exact h.symm
    | some sv =>
        have hmem : sv ∈ st.clients := hinv (name, sv) (alookup_mem _ _ _ hl)
        have h4 : callToolModel sc st name args = Except.ok (sc sv name args) := by
          unfold callToolModel
          rw [hl]
          exact if_pos hmem
        rw [h4] at he
        exact absurd he (by simp)
  · intro hl
    unfold callToolModel
    rw [hl]
  · intro sv hl
    unfold callToolModel
    rw [hl]
    exact if_pos (hinv (name, sv) (alookup_mem _ _ _ hl))

/-- Witness for `routing_state_safety`: the state after one successful
connection registering one tool. -/
theorem routing_state_safety_witness :
    RoutingInv (connectServer ⟨[], [], []⟩ "sefaria-texts"
      (ConnectOutcome.withTools [("lookup", "d")])) ∧
    (∀ e, callToolModel (fun _ _ _ => McpResult.str "raw")
        (connectServer ⟨[], [], []⟩ "sefaria-texts"
          (ConnectOutcome.withTools [("lookup", "d")])) "lookup" "a" =
          Except.error e → e = "Unknown tool: " ++ "lookup") ∧
    (alookup (connectServer ⟨[], [], []⟩ "sefaria-texts"
        (ConnectOutcome.withTools [("lookup", "d")])).toolToServer "lookup" = none →
      callToolModel (fun _ _ _ => McpResult.str "raw")
        (connectServer ⟨[], [], []⟩ "sefaria-texts"
          (ConnectOutcome.withTools [("lookup", "d")])) "lookup" "a" =
        Except.error ("Unknown tool: " ++ "lookup")) ∧
    (∀ sv, alookup (connectServer ⟨[], [], []⟩ "sefaria-texts"
        (ConnectOutcome.withTools [("lookup", "d")])).toolToServer "lookup" = some sv →
      callToolModel (fun _ _ _ => McpResult.str "raw")
        (connectServer ⟨[], [], []⟩ "sefaria-texts"
          (ConnectOutcome.withTools [("lookup", "d")])) "lookup" "a" =
        Except.ok ((fun _ _ _ => McpResult.str "raw") sv "lookup" "a")) :=
  routing_state_safety (fun _ _ _ => McpResult.str "raw")
    (McpReach.connect "sefaria-texts" (ConnectOutcome.withTools [("lookup", "d")])
      McpReach.empty) "lookup" "a"

/-- Claim C6: an unrouted tool name makes `callTool` fail with the
"Unknown tool" error (a routed one returns the raw server result unmodified);
the orchestrator catches the failure, appends a `functionResponse` whose
`error` string is non-empty and contains the tool name, does not abort the
round, and proceeds to the next model call, which can then answer. -/
theorem unknown_tool_error_flow (sc : ServerCall) (st : McpState)
    (nm args cid t0 t1 : String) (prov : Nat → ProviderStep)
    (hist : List Message) (m : String)
    (hmiss : alookup st.toolToServer nm = none)
    (hp0 : prov 0 = .ok ⟨t0, [⟨nm, args, cid⟩]⟩)
    (hp1 : prov 1 = .ok ⟨t1, []⟩) :
    callToolModel sc st nm args = Except.error ("Unknown tool: " ++ nm) ∧
    (∀ nm' args' sv, alookup st.toolToServer nm' = some sv → sv ∈ st.clients →
      callToolModel sc st nm' args' = Except.ok (sc sv nm' args')) ∧
    execCall (callToolModel sc st) ⟨nm, args, cid⟩ =
      Part.functionResponse nm
        [("error", errMsgFor nm ("Unknown tool: " ++ nm))] cid ∧
    errMsgFor nm ("Unknown tool: " ++ nm) ≠ "" ∧
    (∃ pre post, errMsgFor nm ("Unknown tool: " ++ nm) = pre ++ nm ++ post) ∧
    sendMessage (callToolModel sc st) prov hist m =
      ⟨hist ++ [userMsg m, modelTurn ⟨t0, [⟨nm, args, cid⟩]⟩,
          ⟨Role.user, [Part.functionResponse nm
            [("error", errMsgFor nm ("Unknown tool: " ++ nm))] cid]⟩,
          ⟨Role.model, [Part.text t1]⟩],
        [ToolEvent.calling nm, ToolEvent.done nm], none, 2⟩ := by
  have hcall : callToolModel sc st nm args =
      Except.error ("Unknown tool: " ++ nm) := by
    unfold callToolModel
    rw [hmiss]
  have hexec : execCall (callToolModel sc st) ⟨nm, args, cid⟩ =
      Part.functionResponse nm
        [("error", errMsgFor nm ("Unknown tool: " ++ nm))] cid := by
    unfold execCall
    rw [hcall]
  refine ⟨hcall, ?_, hexec, ?_, ?_, ?_⟩
  · intro nm' args' sv hl hc
    unfold callToolModel
    rw [hl]
    exact if_pos hc
  · intro hcontra
    have hlen := congrArg String.length hcontra
    rw [errMsgFor, String.length_append, String.length_append,
      String.length_append] at hlen
    have h20 : ("Error invoking tool " : String).length = 20 := rfl
    have h0 : ("" : String).length = 0 := rfl
    omega
  · exact ⟨"Error invoking tool ", ": " ++ ("Unknown tool: " ++ nm),
      by rw [errMsgFor, String.append_assoc, String.append_assoc]⟩
  · rw [sendMessage]
    have h10 : maxRounds = 9 + 1 := rfl
    rw [h10, sendMessageLoop_calls _ prov hp0 (List.cons_ne_nil _ _)]
    have h9 : (9 : Nat) = 8 + 1 := rfl
    rw [h9, sendMessageLoop_done _ prov hp1 rfl]
    simp [bumpRounds, toolResponseTurn, execCalls_eq, callEvents, hexec]

/-- Witness for `unknown_tool_error_flow`: empty manager, model requests
`lookup`, second round answers in plain text. -/
theorem unknown_tool_error_flow_witness :
    callToolModel (fun _ _ _ => McpResult.str "raw") ⟨[], [], []⟩ "lookup" "a" =
      Except.error ("Unknown tool: " ++ "lookup") ∧
    (∀ nm' args' sv,
      alookup (McpState.toolToServer ⟨[], [], []⟩) nm' = some sv →
      sv ∈ (McpState.clients ⟨[], [], []⟩) →
      callToolModel (fun _ _ _ => McpResult.str "raw") ⟨[], [], []⟩ nm' args' =
        Except.ok ((fun _ _ _ => McpResult.str "raw") sv nm' args')) ∧
    execCall (callToolModel (fun _ _ _ => McpResult.str "raw") ⟨[], [], []⟩)
        ⟨"lookup", "a", "c1"⟩ =
      Part.functionResponse "lookup"
        [("error", errMsgFor "lookup" ("Unknown tool: " ++ "lookup"))] "c1" ∧
    errMsgFor "lookup" ("Unknown tool: " ++ "lookup") ≠ "" ∧
    (∃ pre post, errMsgFor "lookup" ("Unknown tool: " ++ "lookup") =
      pre ++ "lookup" ++ post) ∧
    sendMessage (callToolModel (fun _ _ _ => McpResult.str "raw") ⟨[], [], []⟩)
        (fun n => if n = 0 then .ok ⟨"", [⟨"lookup", "a", "c1"⟩]⟩
          else .ok ⟨"answer", []⟩) [] "hello" =
      ⟨[] ++ [userMsg "hello", modelTurn ⟨"", [⟨"lookup", "a", "c1"⟩]⟩,
          ⟨Role.user, [Part.functionResponse "lookup"
            [("error", errMsgFor "lookup" ("Unknown tool: " ++ "lookup"))] "c1"]⟩,
          ⟨Role.model, [Part.text "answer"]⟩],
        [ToolEvent.calling "lookup", ToolEvent.done "lookup"], none, 2⟩ :=
  unknown_tool_error_flow (fun _ _ _ => McpResult.str "raw") ⟨[], [], []⟩
    "lookup" "a" "c1" "" "answer"
    (fun n => if n = 0 then .ok ⟨"", [⟨"lookup", "a", "c1"⟩]⟩
      else .ok ⟨"answer", []⟩) [] "hello" rfl rfl rfl

/-- The two configured servers (mcp-client.ts `SEFARIA_SERVERS`) both
advertising a tool named "lookup". -/
def collisionState : McpState :=
  connectServer
    (connectServer ⟨[], [], []⟩ "sefaria-texts"
      (ConnectOutcome.withTools [("lookup", "d1")]))
    "sefaria-developers" (ConnectOutcome.withTools [("lookup", "d2")])

/-- Counterexample to claim C8 as stated: when both servers advertise
"lookup", the routing entry maps it to the LAST-registered server (`Map.set`
overwrites), not the first, and `listAllTools()` keeps both entries, so tool
names are not unique across the merged catalog. -/
theorem tool_collision_counterexample :
    ¬ alookup collisionState.toolToServer "lookup" = some "sefaria-texts" ∧
    alookup collisionState.toolToServer "lookup" = some "sefaria-developers" ∧
    ¬ ((listAllTools collisionState).map McpTool.name).Nodup := by
  refine ⟨?_, ?_, ?_⟩ <;> decide

/-- Claim C8 (amended): when a later `connect` registers a tool name that an
earlier server already registered, the routing entry is overwritten — the
last-registered server wins — and the merged catalog retains one entry per
registration, so colliding names appear more than once in `listAllTools()`. -/
theorem tool_collision_last_wins (st : McpState) (server : String)
    (ts : List (String × String)) (n : String) (hn : n ∈ ts.map Prod.fst) :
    alookup (connectServer st server (ConnectOutcome.withTools ts)).toolToServer n =
      some server ∧
    (listAllTools (connectServer st server (ConnectOutcome.withTools ts))).length =
      (listAllTools st).length + ts.length := by
  constructor
  · exact alookup_foldRegister server ts _ n hn
  · exact foldRegister_tools_length server ts _

/-- Witness for `tool_collision_last_wins`: re-registering "lookup" over
`collisionState`'s first connection. -/
theorem tool_collision_last_wins_witness :
    alookup (connectServer
        (connectServer ⟨[], [], []⟩ "sefaria-texts"
          (ConnectOutcome.withTools [("lookup", "d1")]))
        "sefaria-developers"
        (ConnectOutcome.withTools [("lookup", "d2")])).toolToServer "lookup" =
      some "sefaria-developers" ∧
    (listAllTools (connectServer
        (connectServer ⟨[], [], []⟩ "sefaria-texts"
          (ConnectOutcome.withTools [("lookup", "d1")]))
        "sefaria-developers"
        (ConnectOutcome.withTools [("lookup", "d2")]))).length =
      (listAllTools (connectServer ⟨[], [], []⟩ "sefaria-texts"
        (ConnectOutcome.withTools [("lookup", "d1")]))).length + 1 :=
  tool_collision_last_wins
    (connectServer ⟨[], [], []⟩ "sefaria-texts"
      (ConnectOutcome.withTools [("lookup", "d1")]))
    "sefaria-developers" [("lookup", "d2")] "lookup" (by decide)

/-! ## Effective RPM and the follow-up capacity gate (claim C9) -/

structure ProviderModel where
  id : String
  name : String
  rpm : Option Nat
deriving DecidableEq, Repr

structure RateLimit where
  rpm : Nat
  windowMs : Int
deriving DecidableEq, Repr

structure ProviderInfo where
  id : String
  models : List ProviderModel
  defaultModel : String
  rateLimit : RateLimit
deriving DecidableEq, Repr

/-- Embeds `getEffectiveRpm()` (chat-engine.ts lines 31-34):
`model?.rpm ?? this.provider.info.rateLimit.rpm`. -/
def getEffectiveRpm (info : ProviderInfo) (modelId : String) : Nat :=
  match info.models.find? (fun mo => mo.id == modelId) with
  | some mo => mo.rpm.getD info.rateLimit.rpm
  | none => info.rateLimit.rpm

/-- Embeds `hasCapacityForFollowUps()` (chat-engine.ts lines 73-76):
`this.currentUsage() < Math.floor(rpm * 0.6)`.  For RPM budgets of the
magnitude the app configures, the IEEE-754 product `rpm * 0.6` rounds to the
exact real value, so `Math.floor` of it equals the Nat division `3 * rpm / 5`
used here. -/
def hasCapacityForFollowUps (ledger : List Int) (now windowMs : Int)
    (info : ProviderInfo) (modelId : String) : Bool :=
  decide (currentUsage ledger now windowMs < 3 * getEffectiveRpm info modelId / 5)

/-- A provider whose effective RPM is 6, as `updateProvider` may install. -/
def rpm6Info : ProviderInfo :=
  ⟨"p", [], "m", ⟨6, 60000⟩⟩

/-- Counterexample to claim C9 as stated: with effective RPM 6 and 3 requests
in the window, usage is strictly below 60% of the RPM (15 < 18), yet
`hasCapacityForFollowUps` returns false, because the code compares against
`Math.floor(rpm * 0.6) = 3`, not against 60% itself. -/
theorem followup_gate_counterexample :
    hasCapacityForFollowUps [0, 0, 0] 0 60000 rpm6Info "m" = false ∧
    5 * currentUsage [0, 0, 0] 0 60000 < 3 * getEffectiveRpm rpm6Info "m" := by
  refine ⟨?_, ?_⟩ <;> decide

/-- Claim C9 (amended): `hasCapacityForFollowUps()` returns true iff the
current pruned window usage is strictly below `⌊0.6 · R⌋` where `R` is the
effective RPM — the per-model override when the active model is found,
otherwise the provider-level rate-limit RPM.  A true result still implies
usage is strictly below 60% of `R` (the converse fails; see the
counterexample). -/
theorem followup_gate_floor (ledger : List Int) (now windowMs : Int)
    (info : ProviderInfo) (modelId : String) :
    (hasCapacityForFollowUps ledger now windowMs info modelId = true ↔
      currentUsage ledger now windowMs < 3 * getEffectiveRpm info modelId / 5) ∧
    (hasCapacityForFollowUps ledger now windowMs info modelId = true →
      5 * currentUsage ledger now windowMs < 3 * getEffectiveRpm info modelId) ∧
    (∀ mo, info.models.find? (fun m' => m'.id == modelId) = some mo →
      getEffectiveRpm info modelId = mo.rpm.getD info.rateLimit.rpm) ∧
    (info.models.find? (fun m' => m'.id == modelId) = none →
      getEffectiveRpm info modelId = info.rateLimit.rpm) := by
  refine ⟨?_, ?_, ?_, ?_⟩
  · simp [hasCapacityForFollowUps]
  · intro h
    simp only [hasCapacityForFollowUps, decide_eq_true_eq] at h
    omega
  · intro mo hmo
    simp [getEffectiveRpm, hmo]
  · intro hmo
    simp [getEffectiveRpm, hmo]

/-- A provider with a per-model RPM override, like the Gemini descriptor. -/
def geminiLikeInfo : ProviderInfo :=
  ⟨"gemini", [⟨"gemini-2.5-flash", "Gemini 2.5 Flash", some 5⟩],
    "gemini-2.5-flash", ⟨10, 60000⟩⟩

/-- Witness for `followup_gate_floor` on the override-bearing descriptor. -/
theorem followup_gate_floor_witness :
    (hasCapacityForFollowUps [0] 0 60000 geminiLikeInfo "gemini-2.5-flash" = true ↔
      currentUsage [0] 0 60000 <
        3 * getEffectiveRpm geminiLikeInfo "gemini-2.5-flash" / 5) ∧
    (hasCapacityForFollowUps [0] 0 60000 geminiLikeInfo "gemini-2.5-flash" = true →
      5 * currentUsage [0] 0 60000 <
        3 * getEffectiveRpm geminiLikeInfo "gemini-2.5-flash") ∧
    (∀ mo, geminiLikeInfo.models.find?
        (fun m' => m'.id == "gemini-2.5-flash") = some mo →
      getEffectiveRpm geminiLikeInfo "gemini-2.5-flash" =
        mo.rpm.getD geminiLikeInfo.rateLimit.rpm) ∧
    (geminiLikeInfo.models.find? (fun m' => m'.id == "gemini-2.5-flash") = none →
      getEffectiveRpm geminiLikeInfo "gemini-2.5-flash" =
        geminiLikeInfo.rateLimit.rpm) :=
  followup_gate_floor [0] 0 60000 geminiLikeInfo "gemini-2.5-flash"

/-! ## OpenAI-style streaming adapters (claim C5)

The Grok and DeepSeek adapters share the same `streamChat` loop (grok.ts
lines 242-274, deepseek.ts lines 121-153): text deltas are appended as they
arrive, tool-call fragments are accumulated in the insertion-ordered
`toolCallsMap` keyed by `tc.index ?? 0`, and only after the stream ends is
each entry's argument buffer passed to `JSON.parse` (with `'{}'` for an empty
buffer).  `JSON.parse` itself is abstracted as a parameter `parse`. -/

/-- One incremental fragment `delta.tool_calls[i]`; absent JS fields are
`none`. -/
structure ToolCallDelta where
  index : Option Nat
  id : Option String
  fname : Option String
  fargs : Option String
deriving DecidableEq, Repr

/-- One streamed `delta` (absent `tool_calls` behaves as the empty list). -/
structure StreamDelta where
  content : Option String
  tool_calls : List ToolCallDelta
deriving DecidableEq, Repr

/-- One chunk; `delta = none` models `!chunk.choices?.[0]?.delta`. -/
structure StreamChunk where
  delta : Option StreamDelta
deriving DecidableEq, Repr

/-- JS truthiness of an optional string: present and non-empty. -/
def truthyS : Option String → Bool
  | none => false
  | some s => decide (¬ s = "")

def getS (o : Option String) : String := o.getD ""

/-- An accumulator entry `{id, name, args}` of the `toolCallsMap`. -/
structure ToolCallEntry where
  id : String
  name : String
  args : String
deriving DecidableEq, Repr

/-- The three conditional updates applied to an entry for one fragment
(grok.ts lines 261-263, deepseek.ts lines 140-142). -/
def updateEntry (e : ToolCallEntry) (tc : ToolCallDelta) : ToolCallEntry :=
  { id := if truthyS tc.id then getS tc.id else e.id,
    name := e.name ++ (if truthyS tc.fname then getS tc.fname else ""),
    args := e.args ++ (if truthyS tc.fargs then getS tc.fargs else "") }

/-- The `toolCallsMap`, as an insertion-ordered finite map (a JS `Map`
preserves insertion order and `Array.from(map.values())` iterates it). -/
abbrev ToolCallMap := List (Nat × ToolCallEntry)

/-- In-place update of the value stored at key `k` (JS mutation of the entry
object obtained from `map.get(idx)`). -/
def mapUpd {α β : Type} [DecidableEq α] (m : List (α × β)) (k : α) (f : β → β) :
    List (α × β) :=
  m.map (fun p => if p.1 = k then (k, f p.2) else p)

/-- Embeds the per-fragment step (grok.ts lines 255-264): default the index
to 0, create the entry on first sight, then merge the fragment into it. -/
def applyToolCallDelta (m : ToolCallMap) (tc : ToolCallDelta) : ToolCallMap :=
  mapUpd
    (if (alookup m (tc.index.getD 0)).isSome then m
     else m ++ [(tc.index.getD 0, ⟨getS tc.id, "", ""⟩)])
    (tc.index.getD 0) (fun e => updateEntry e tc)

/-- Adapter streaming state: accumulated text and the tool-call map. -/
structure AccState where
  text : String
  calls : ToolCallMap
deriving DecidableEq, Repr

/-- Embeds one iteration of the chunk loop (grok.ts lines 245-266): append a
truthy content delta, then fold this chunk's tool-call fragments. -/
def processChunk (st : AccState) (c : StreamChunk) : AccState :=
  match c.delta with
  | none => st
  | some d =>
      let st1 := if truthyS d.content
        then { st with text := st.text ++ getS d.content } else st
      { st1 with calls := d.tool_calls.foldl applyToolCallDelta st1.calls }

def accumulateStream (chunks : List StreamChunk) : AccState :=
  chunks.foldl processChunk ⟨"", []⟩

structure ParsedFunctionCall (α : Type) where
  name : String
  args : α
  id : String
deriving DecidableEq, Repr

/-- Embeds the end-of-stream finalization (grok.ts lines 268-272):
`{ name, args: JSON.parse(tc.args || '\x7b\x7d'), id }` per entry, in map
order — the only place `parse` is applied, once per entry. -/
def finalizeToolCalls {α : Type} (parse : String → α) (m : ToolCallMap) :
    List (ParsedFunctionCall α) :=
  m.map (fun p =>
    ⟨p.2.name, parse (if p.2.args = "" then "\x7b\x7d" else p.2.args), p.2.id⟩)

/-- The whole of `streamChat`'s assembly: accumulate, then finalize. -/
def streamChatModel {α : Type} (parse : String → α) (chunks : List StreamChunk) :
    String × List (ParsedFunctionCall α) :=
  ((accumulateStream chunks).text,
   finalizeToolCalls parse (accumulateStream chunks).calls)

/-- All tool-call fragments of a chunk list, in arrival order. -/
def deltasOf : List StreamChunk → List ToolCallDelta
  | [] => []
  | c :: rest =>
      (match c.delta with
       | none => []
       | some d => d.tool_calls) ++ deltasOf rest

/-- Concatenation of the name fragments carrying a given index. -/
def nameFragsOf : List ToolCallDelta → Nat → String
  | [], _ => ""
  | tc :: rest, idx =>
      (if tc.index.getD 0 = idx then getS tc.fname else "") ++ nameFragsOf rest idx

/-- Concatenation of the raw argument fragments carrying a given index. -/
def argFragsOf : List ToolCallDelta → Nat → String
  | [], _ => ""
  | tc :: rest, idx =>
      (if tc.index.getD 0 = idx then getS tc.fargs else "") ++ argFragsOf rest idx

def nameFragments (chunks : List StreamChunk) (idx : Nat) : String :=
  nameFragsOf (deltasOf chunks) idx

def argFragments (chunks : List StreamChunk) (idx : Nat) : String :=
  argFragsOf (deltasOf chunks) idx

theorem truthy_append (o : Option String) :
    (if truthyS o then getS o else "") = getS o := by
  cases o with
  | none => rfl
  | some s =>
      by_cases h : s = "" <;> simp [truthyS, getS, h]

theorem alookup_mapUpd_self {α β : Type} [DecidableEq α] (m : List (α × β))
    (k : α) (f : β → β) :
    alookup (mapUpd m k f) k = (alookup m k).map f := by
  induction m with
  | nil => rfl
  | cons p rest ih =>
      by_cases hp : p.1 = k
      · simp [mapUpd, alookup, hp]
      · simpa [mapUpd, alookup, hp] using ih

theorem alookup_mapUpd_other {α β : Type} [DecidableEq α] (m : List (α × β))
    {k k' : α} (f : β → β) (hne : k' ≠ k) :
    alookup (mapUpd m k f) k' = alookup m k' := by
  induction m with
  | nil => rfl
  | cons p rest ih =>
      by_cases hp : p.1 = k
      · have h2 : ¬ k = k' := fun hc => hne hc.symm
        have h3 : ¬ p.1 = k' := by rw [hp]; exact h2
        simpa [mapUpd, alookup, hp, h2, h3] using ih
      · by_cases hp' : p.1 = k'
        · simp [mapUpd, alookup, hp, hp', hne]
        · simpa [mapUpd, alookup, hp, hp'] using ih

theorem keys_mapUpd {α β : Type} [DecidableEq α] (m : List (α × β))
    (k : α) (f : β → β) :
    (mapUpd m k f).map Prod.fst = m.map Prod.fst := by
  induction m with
  | nil => rfl
  | cons p rest ih =>
      simp only [mapUpd, List.map_cons] at ih ⊢
      by_cases hp : p.1 = k
      · rw [if_pos hp, ih]
        simp [hp]
      · rw [if_neg hp, ih]

theorem alookup_eq_none_of_not_mem_keys {α β : Type} [DecidableEq α]
    {m : List (α × β)} {k : α} (h : k ∉ m.map Prod.fst) :
    alookup m k = none := by
  induction m with
  | nil => rfl
  | cons p rest ih =>
      simp only [List.map_cons, List.mem_cons, not_or] at h
      rw [alookup, if_neg (fun hc => h.1 hc.symm)]
      exact ih h.2

theorem mem_keys_of_alookup_isSome {α β : Type} [DecidableEq α]
    {m : List (α × β)} {k : α} (h : (alookup m k).isSome) :
    k ∈ m.map Prod.fst := by
  by_contra hc
  rw [alookup_eq_none_of_not_mem_keys hc] at h
  simp at h

theorem alookup_of_mem_nodup {α β : Type} [DecidableEq α]
    {m : List (α × β)} (hnd : (m.map Prod.fst).Nodup)
    {k : α} {v : β} (h : (k, v) ∈ m) :
    alookup m k = some v := by
  induction m with
  | nil => simp at h
  | cons p rest ih =>
      simp only [List.map_cons, List.nodup_cons] at hnd
      rcases List.mem_cons.mp h with rfl | hmem
      · simp [alookup]
      · have hk : k ∈ rest.map Prod.fst :=
          List.mem_map.mpr ⟨(k, v), hmem, rfl⟩
        have hp : ¬ p.1 = k := fun hc => hnd.1 (hc ▸ hk)
        rw [alookup, if_neg hp]
        exact ih hnd.2 hmem

theorem alookup_isSome_of_mem_keys {α β : Type} [DecidableEq α]
    {m : List (α × β)} {k : α} (h : k ∈ m.map Prod.fst) :
    (alookup m k).isSome := by
  induction m with
  | nil => simp at h
  | cons p rest ih =>
      by_cases hp : p.1 = k
      · simp [alookup, hp]
      · simp only [List.map_cons, List.mem_cons] at h
        rcases h with h | h
        · exact absurd h.symm hp
        · simpa [alookup, hp] using ih h

theorem applyDelta_lookup_self (m : ToolCallMap) (tc : ToolCallDelta) :
    alookup (applyToolCallDelta m tc) (tc.index.getD 0) =
      some (updateEntry ((alookup m (tc.index.getD 0)).getD ⟨getS tc.id, "", ""⟩) tc) := by
  unfold applyToolCallDelta
  by_cases h : (alookup m (tc.index.getD 0)).isSome
  · rw [if_pos h, alookup_mapUpd_self]
    obtain ⟨e, he⟩ := Option.isSome_iff_exists.mp h
    rw [he]
    rfl
  · rw [if_neg h, alookup_mapUpd_self, alookup_append]
    rw [Option.not_isSome_iff_eq_none] at h
    rw [h]
    simp [alookup]

theorem applyDelta_lookup_other (m : ToolCallMap) (tc : ToolCallDelta)
    {idx' : Nat} (hne : idx' ≠ tc.index.getD 0) :
    alookup (applyToolCallDelta m tc) idx' = alookup m idx' := by
  unfold applyToolCallDelta
  by_cases h : (alookup m (tc.index.getD 0)).isSome
  · rw [if_pos h, alookup_mapUpd_other _ _ hne]
  · rw [if_neg h, alookup_mapUpd_other _ _ hne, alookup_append]
    cases hm : alookup m idx' with
    | some v => rfl
    | none =>
        simp only [alookup]
        rw [if_neg (fun hc : tc.index.getD 0 = idx' => hne hc.symm)]

theorem applyDelta_keys (m : ToolCallMap) (tc : ToolCallDelta) :
    (applyToolCallDelta m tc).map Prod.fst =
      if (alookup m (tc.index.getD 0)).isSome then m.map Prod.fst
      else m.map Prod.fst ++ [tc.index.getD 0] := by
  unfold applyToolCallDelta
  by_cases h : (alookup m (tc.index.getD 0)).isSome
  · rw [if_pos h, if_pos h, keys_mapUpd]
  · rw [if_neg h, if_neg h, keys_mapUpd, List.map_append]
    rfl

theorem applyDelta_nodup {m : ToolCallMap} (h : (m.map Prod.fst).Nodup)
    (tc : ToolCallDelta) : ((applyToolCallDelta m tc).map Prod.fst).Nodup := by
  rw [applyDelta_keys]
  by_cases hs : (alookup m (tc.index.getD 0)).isSome
  · rwa [if_pos hs]
  · rw [if_neg hs]
    have hnm : tc.index.getD 0 ∉ m.map Prod.fst := fun hmem => by
      have := alookup_isSome_of_mem_keys hmem
      exact hs this
    simp [List.nodup_append, h, hnm]

theorem foldDeltas_nodup : ∀ (ds : List ToolCallDelta) (m : ToolCallMap),
    (m.map Prod.fst).Nodup →
    ((ds.foldl applyToolCallDelta m).map Prod.fst).Nodup := by
  intro ds
  induction ds with
  | nil => intro m h; exact h
  | cons tc rest ih =>
      intro m h
      exact ih _ (applyDelta_nodup h tc)

theorem foldDeltas_lookup_some :
    ∀ (ds : List ToolCallDelta) (m : ToolCallMap) (idx : Nat) (e0 : ToolCallEntry),
      alookup m idx = some e0 →
      ∃ e1, alookup (ds.foldl applyToolCallDelta m) idx = some e1 ∧
        e1.name = e0.name ++ nameFragsOf ds idx ∧
        e1.args = e0.args ++ argFragsOf ds idx := by
  intro ds
  induction ds with
  | nil =>
      intro m idx e0 h
      exact ⟨e0, h, by simp [nameFragsOf], by simp [argFragsOf]⟩
  | cons tc rest ih =>
      intro m idx e0 h
      simp only [List.foldl_cons]
      by_cases hidx : tc.index.getD 0 = idx
      · have hl := applyDelta_lookup_self m tc
        rw [hidx, h] at hl
        obtain ⟨e1, h1, hn, ha⟩ := ih _ idx (updateEntry e0 tc) (by simpa using hl)
        refine ⟨e1, h1, ?_, ?_⟩
        · rw [hn]
          simp [updateEntry, nameFragsOf, hidx, truthy_append, String.append_assoc]
        · rw [ha]
          simp [updateEntry, argFragsOf, hidx, truthy_append, String.append_assoc]
      · have hne : idx ≠ tc.index.getD 0 := fun hc => hidx hc.symm
        obtain ⟨e1, h1, hn, ha⟩ := ih (applyToolCallDelta m tc) idx e0
          (by rw [applyDelta_lookup_other m tc hne]; exact h)
        refine ⟨e1, h1, ?_, ?_⟩
        · rw [hn]
          simp [nameFragsOf, hidx]
        · rw [ha]
          simp [argFragsOf, hidx]

theorem foldDeltas_lookup_none :
    ∀ (ds : List ToolCallDelta) (m : ToolCallMap) (idx : Nat),
      alookup m idx = none →
      (alookup (ds.foldl applyToolCallDelta m) idx = none ∧
        nameFragsOf ds idx = "" ∧ argFragsOf ds idx = "") ∨
      (∃ e1, alookup (ds.foldl applyToolCallDelta m) idx = some e1 ∧
        e1.name = nameFragsOf ds idx ∧ e1.args = argFragsOf ds idx) := by
  intro ds
  induction ds with
  | nil => intro m idx h; exact Or.inl ⟨h, rfl, rfl⟩
  | cons tc rest ih =>
      intro m idx h
      simp only [List.foldl_cons]
      by_cases hidx : tc.index.getD 0 = idx
      · right
        have hl := applyDelta_lookup_self m tc
        rw [hidx, h] at hl
        have hl' : alookup (applyToolCallDelta m tc) idx =
            some (updateEntry ⟨getS tc.id, "", ""⟩ tc) := by simpa using hl
        obtain ⟨e1, h1, hn, ha⟩ := foldDeltas_lookup_some rest _ idx _ hl'
        refine ⟨e1, h1, ?_, ?_⟩
        · rw [hn]
          simp [updateEntry, nameFragsOf, hidx, truthy_append]
        · rw [ha]
          simp [updateEntry, argFragsOf, hidx, truthy_append]
      · have hne : idx ≠ tc.index.getD 0 := fun hc => hidx hc.symm
        have hl : alookup (applyToolCallDelta m tc) idx = none := by
          rw [applyDelta_lookup_other m tc hne]; exact h
        rcases ih _ idx hl with ⟨h1, h2, h3⟩ | ⟨e1, h1, hn, ha⟩
        · exact Or.inl ⟨h1, by simp [nameFragsOf, hidx, h2],
            by simp [argFragsOf, hidx, h3]⟩
        · exact Or.inr ⟨e1, h1, by simp [nameFragsOf, hidx, hn],
            by simp [argFragsOf, hidx, ha]⟩

theorem accumulate_calls (chunks : List StreamChunk) :
    ∀ st : AccState, (chunks.foldl processChunk st).calls =
      (deltasOf chunks).foldl applyToolCallDelta st.calls := by
  induction chunks with
  | nil => intro st; rfl
  | cons c rest ih =>
      intro st
      simp only [List.foldl_cons, deltasOf, List.foldl_append]
      rw [ih]
      congr 1
      cases hc : c.delta with
      | none => simp [processChunk, hc]
      | some d =>
          simp only [processChunk, hc]
          by_cases ht : truthyS d.content <;> simp [ht]

/-- Claim C5: the streaming adapters accumulate tool-call fragments in a
finite map keyed by the vendor call index — indices stay pairwise distinct,
and the entry of each index carries exactly the concatenation of that
index's name fragments and raw argument text, in arrival order.  The final
call list applies the JSON parser exactly once per entry, to the complete
buffer, only at finalization (the accumulation itself never sees `parse`),
yielding one call per index; an entry whose argument buffer stayed empty is
parsed as `parse "\x7b\x7d"`, the empty JSON object. -/
theorem incremental_assembly {α : Type} (parse : String → α)
    (chunks : List StreamChunk) (idx : Nat) (e : ToolCallEntry)
    (h : alookup (accumulateStream chunks).calls idx = some e) :
    ((accumulateStream chunks).calls.map Prod.fst).Nodup ∧
    e.name = nameFragments chunks idx ∧
    e.args = argFragments chunks idx ∧
    (streamChatModel parse chunks).2 =
      (accumulateStream chunks).calls.map
        (fun p => ⟨nameFragments chunks p.1,
          parse (if argFragments chunks p.1 = "" then "\x7b\x7d"
            else argFragments chunks p.1), p.2.id⟩) ∧
    (e.args = "" →
      (⟨nameFragments chunks idx, parse "\x7b\x7d", e.id⟩ :
        ParsedFunctionCall α) ∈ (streamChatModel parse chunks).2) := by
  have hcalls : (accumulateStream chunks).calls =
      (deltasOf chunks).foldl applyToolCallDelta [] :=
    accumulate_calls chunks ⟨"", []⟩
  have hnodup : ((accumulateStream chunks).calls.map Prod.fst).Nodup := by
    rw [hcalls]
    exact foldDeltas_nodup _ [] (by simp)
  have hfields : ∀ (i : Nat) (e' : ToolCallEntry),
      alookup (accumulateStream chunks).calls i = some e' →
      e'.name = nameFragments chunks i ∧ e'.args = argFragments chunks i := by
    intro i e' h'
    rw [hcalls] at h'
    rcases foldDeltas_lookup_none (deltasOf chunks) [] i rfl with
      ⟨h1, _, _⟩ | ⟨e1, h1, hn, ha⟩
    · rw [h'] at h1
      exact absurd h1 (by simp)
    · rw [h'] at h1
      injection h1 with h1
      rw [h1]
      exact ⟨hn, ha⟩
  have hmain : (streamChatModel parse chunks).2 =
      (accumulateStream chunks).calls.map
        (fun p => ⟨nameFragments chunks p.1,
          parse (if argFragments chunks p.1 = "" then "\x7b\x7d"
            else argFragments chunks p.1), p.2.id⟩) := by
    show finalizeToolCalls parse (accumulateStream chunks).calls = _
    unfold finalizeToolCalls
    apply List.map_congr_left
    intro p hp
    have hl : alookup (accumulateStream chunks).calls p.1 = some p.2 := by
      apply alookup_of_mem_nodup hnodup
      exact hp
    obtain ⟨hn, ha⟩ := hfields p.1 p.2 hl
    rw [hn, ha]
  refine ⟨hnodup, (hfields idx e h).1, (hfields idx e h).2, hmain, ?_⟩
  intro hargs
  have hmem : (idx, e) ∈ (accumulateStream chunks).calls := alookup_mem _ _ _ h
  rw [hmain]
  apply List.mem_map.mpr
  refine ⟨(idx, e), hmem, ?_⟩
  obtain ⟨hn, ha⟩ := hfields idx e h
  rw [← ha, hargs]
  simp

/-- First streamed chunk of the witness: text plus the head fragments of one
tool call at index 0. -/
def chunkA : StreamChunk :=
  ⟨some ⟨some "Hello", [⟨some 0, some "c1", some "look", some "\x7b\"a\":"⟩]⟩⟩

/-- Second streamed chunk of the witness: the tail fragments of the call. -/
def chunkB : StreamChunk :=
  ⟨some ⟨none, [⟨some 0, none, some "up", some "1\x7d"⟩]⟩⟩

/-- The entry `chunkA, chunkB` accumulate at index 0. -/
def entryW : ToolCallEntry := ⟨"c1", "lookup", "\x7b\"a\":1\x7d"⟩

/-- Witness for `incremental_assembly` on a two-chunk split call. -/
theorem incremental_assembly_witness :
    ((accumulateStream [chunkA, chunkB]).calls.map Prod.fst).Nodup ∧
    entryW.name = nameFragments [chunkA, chunkB] 0 ∧
    entryW.args = argFragments [chunkA, chunkB] 0 ∧
    (streamChatModel (fun s => s) [chunkA, chunkB]).2 =
      (accumulateStream [chunkA, chunkB]).calls.map
        (fun p => ⟨nameFragments [chunkA, chunkB] p.1,
          (fun s => s) (if argFragments [chunkA, chunkB] p.1 = "" then "\x7b\x7d"
            else argFragments [chunkA, chunkB] p.1), p.2.id⟩) ∧
    (entryW.args = "" →
      (⟨nameFragments [chunkA, chunkB] 0, (fun s => s) "\x7b\x7d", entryW.id⟩ :
        ParsedFunctionCall String) ∈ (streamChatModel (fun s => s) [chunkA, chunkB]).2) :=
  incremental_assembly (fun s => s) [chunkA, chunkB] 0 entryW (by decide)

end SefariaChat
